import Mathlib

/-!
# Detective Quest: clue ledger, suspect index and exploration

A shallow embedding of `algoritmos_avancados.c`.

* A C string is the list of its character codes; the terminating NUL is the
  end of the list.
* A pointer to a heap node is the node itself, and `NULL` is the `nulo`
  constructor of each node type.
* Functions that update a structure in place return the updated structure.
* The input of `explorarSalas` is the list of characters that
  `scanf(" %c", ...)` delivers (white space is skipped by the format), and
  the accused name of `verificarSuspeitoFinal` is the line that
  `scanf(" %[^\n]", ...)` delivers; `principal` takes both from one raw
  console input, as `main` does.
* Plain `char` is signed, as on x86-64.
* The fixed-size text buffers are taken to hold the texts copied into them,
  and `malloc` to succeed.
-/

namespace DetectiveQuest

/-! ## Strings -/

/-- A NUL-terminated C string: the codes of its characters (each `char` is
the natural number of its code), terminator excluded. -/
abbrev CStr := List Nat

/-- String literal of the source as a C string (the literals of the program are 7-bit). -/
def lit (s : String) : CStr := s.toList.map Char.toNat

/-- Library `strcmp`: compares character by character as unsigned codes; the
terminator is below every character.  The sign of the result is what the
C standard fixes, and all the program looks at. -/
def strcmp : CStr → CStr → Int
  | [], [] => 0
  | [], _ :: _ => -1
  | _ :: _, [] => 1
  | a :: s, b :: t => if a < b then -1 else if b < a then 1 else strcmp s t

/-! ## Clue ledger (binary search tree) -/

/-- A `NoPista *`: `NULL` or a node with its text and two children. -/
inductive NoPista where
  | nulo : NoPista
  | no (esquerda : NoPista) (pista : CStr) (direita : NoPista) : NoPista
  deriving DecidableEq, Repr

/-- Source function `inserirPista(raiz, pista)`: returns the updated root. -/
def inserirPista : NoPista → CStr → NoPista
  | NoPista.nulo, pista => NoPista.no NoPista.nulo pista NoPista.nulo
  | NoPista.no esquerda chave direita, pista =>
    if strcmp pista chave < 0 then
      NoPista.no (inserirPista esquerda pista) chave direita
    else if strcmp pista chave > 0 then
      NoPista.no esquerda chave (inserirPista direita pista)
    else
      NoPista.no esquerda chave direita

/-- Source function `exibirPistas(raiz)`: the texts in the order they are printed (in-order). -/
def exibirPistas : NoPista → List CStr
  | NoPista.nulo => []
  | NoPista.no esquerda pista direita =>
    exibirPistas esquerda ++ pista :: exibirPistas direita

/-- Ledger obtained by inserting the texts one by one, starting from `raiz`. -/
def inserirTodas (raiz : NoPista) (pistas : List CStr) : NoPista :=
  pistas.foldl inserirPista raiz

/-! ## Suspect index (hash table with chaining) -/

/-- Number of buckets. -/
def TAM_HASH : Nat := 10

/-- One chain entry: the key `pista` and the value `suspeito`.  The `proximo`
link is the tail of the list that holds the entry. -/
structure NoHash where
  pista : CStr
  suspeito : CStr
  deriving DecidableEq, Repr

/-- The chain heads `th->tabela[i]`, an empty list for a `NULL` head.  The
index is the `int` the source computes: the words 0 to `TAM_HASH - 1` are the
array of the table, and the words at other indices are the memory next to the
array, which the source reaches when `funcaoHash` returns a negative index. -/
structure TabelaHash where
  tabela : Int → List NoHash

/-- Source function `funcaoHash` in the arithmetic of the source.  The list
holds the values of the `char` elements of the key as the program reads them:
-128..127 where plain `char` is signed (as on x86-64), 0..255 where it is
unsigned.  Here `hash` is an `int`, each `char` is promoted to `int` with its
sign, and `%` truncates toward zero.  On non-negative values this is the sum
of the values modulo `TAM_HASH` (`funcaoHashInt_ofNat`). -/
def funcaoHashInt (chave : List Int) : Int :=
  Int.tmod (chave.foldl (fun hash c => hash + c) 0) TAM_HASH

/-- Value of a plain `char` that holds the character code `b`: plain `char` is
signed (as on x86-64), so the codes from 128 on read as negative values. -/
def valorChar (b : Nat) : Int :=
  if b < 128 then (b : Int) else (b : Int) - 256

/-- Source function `funcaoHash(chave)`: the sum of the `char` values of the
key, as `int`, and its remainder by `TAM_HASH`.  For a 7-bit key this is the
sum of the character codes modulo `TAM_HASH`; with a code from 128 on the sum,
and with it the result, can be negative. -/
def funcaoHash (chave : CStr) : Int :=
  funcaoHashInt (chave.map valorChar)

/-- Source function `inicializarHash(th)`: the `TAM_HASH` heads of the array
become `NULL`; no other word is written. -/
def inicializarHash (th : TabelaHash) : TabelaHash :=
  ⟨fun i => if 0 ≤ i ∧ i < (TAM_HASH : Int) then [] else th.tabela i⟩

/-- Source function `inserirNaHash(th, pista, suspeito)`: the new entry becomes the head of
the chain at `th->tabela[indice]`. -/
def inserirNaHash (th : TabelaHash) (pista suspeito : CStr) : TabelaHash :=
  let indice := funcaoHash pista
  let novo : NoHash := ⟨pista, suspeito⟩
  ⟨fun i => if i = indice then novo :: th.tabela indice else th.tabela i⟩

/-- The `while (atual != NULL)` loop of `encontrarSuspeito` over one chain. -/
def buscarNaCadeia : List NoHash → CStr → Option CStr
  | [], _ => none
  | atual :: proximo, pista =>
    if strcmp atual.pista pista = 0 then some atual.suspeito
    else buscarNaCadeia proximo pista

/-- Source function `encontrarSuspeito(th, pista)`: the suspect of the first matching entry
of the chain at `th->tabela[indice]`, `none` for `NULL`. -/
def encontrarSuspeito (th : TabelaHash) (pista : CStr) : Option CStr :=
  let indice := funcaoHash pista
  buscarNaCadeia (th.tabela indice) pista

/-! ## Rooms -/

/-- A `Sala *`: `NULL` or a room with its name and two children. -/
inductive Sala where
  | nulo : Sala
  | no (nome : CStr) (esquerda : Sala) (direita : Sala) : Sala
  deriving DecidableEq, Repr

/-- Source function `obterPistaDaSala(nomeSala)`: the clue of a room, `none` for `NULL`. -/
def obterPistaDaSala (nomeSala : CStr) : Option CStr :=
  if strcmp nomeSala (lit "Hall de Entrada") = 0 then some (lit "Pegadas lamacentas")
  else if strcmp nomeSala (lit "Biblioteca") = 0 then some (lit "Livro de venenos aberto")
  else if strcmp nomeSala (lit "Sala de Jantar") = 0 then some (lit "Copo com residuo suspeito")
  else if strcmp nomeSala (lit "Cozinha") = 0 then some (lit "Faca ensanguentada")
  else if strcmp nomeSala (lit "Escritorio") = 0 then some (lit "Carta de ameaca")
  else if strcmp nomeSala (lit "Quarto Principal") = 0 then some (lit "Cofre arrombado")
  else if strcmp nomeSala (lit "Jardim") = 0 then some (lit "Luvas sujas de terra")
  else if strcmp nomeSala (lit "Adega") = 0 then some (lit "Garrafa de vinho rara")
  else if strcmp nomeSala (lit "Salao de Festas") = 0 then some (lit "Lenco com iniciais")
  else if strcmp nomeSala (lit "Porao") = 0 then some (lit "Ferramenta de arrombamento")
  else none

/-! ## Exploration -/

/-- The ledger once the room named `nome` has been entered: the first part of
`explorarSalas`, up to the menu. -/
def coletar (nome : CStr) (pistasColetadas : NoPista) : NoPista :=
  match obterPistaDaSala nome with
  | some pistaEncontrada => inserirPista pistasColetadas pistaEncontrada
  | none => pistasColetadas

/-- Source function `explorarSalas(salaAtual, pistasColetadas, th)` with a bound on the depth
of the calls.  The input is the list of characters still to be read; the
result is the ledger returned and the input left unread.  The table `th` is
passed along by the source and never read, so it is left out.  When the input
is exhausted `scanf` reads nothing and the call returns.  `none` only when
the depth bound is reached. -/
def explorarSalasAux : Nat → Sala → NoPista → List Nat → Option (NoPista × List Nat)
  | 0, _, _, _ => none
  | _ + 1, Sala.nulo, pistasColetadas, entrada => some (pistasColetadas, entrada)
  | n + 1, Sala.no nome esquerda direita, pistasColetadas, entrada =>
    match entrada with
    | [] => some (coletar nome pistasColetadas, [])
    | escolha :: resto =>
      if escolha = 'e'.toNat ∨ escolha = 'E'.toNat then
        (if esquerda ≠ Sala.nulo then
            explorarSalasAux n esquerda (coletar nome pistasColetadas) resto
          else some (coletar nome pistasColetadas, resto)).bind
          fun r => explorarSalasAux n (Sala.no nome esquerda direita) r.1 r.2
      else if escolha = 'd'.toNat ∨ escolha = 'D'.toNat then
        (if direita ≠ Sala.nulo then
            explorarSalasAux n direita (coletar nome pistasColetadas) resto
          else some (coletar nome pistasColetadas, resto)).bind
          fun r => explorarSalasAux n (Sala.no nome esquerda direita) r.1 r.2
      else some (coletar nome pistasColetadas, resto)

/-- Source function `explorarSalas`: every call on a room reads one character
before it calls again, so a depth of one more than the length of the input is
never reached (`explorarSalas_some`, `explorarSalasAux_eq`). -/
def explorarSalas (salaAtual : Sala) (pistasColetadas : NoPista) (entrada : List Nat) :
    Option (NoPista × List Nat) :=
  explorarSalasAux (entrada.length + 1) salaAtual pistasColetadas entrada

/-! ## Judgment -/

/-- Source function `contarPistasPorSuspeito(raiz, th, suspeitoAlvo)`. -/
def contarPistasPorSuspeito : NoPista → TabelaHash → CStr → Nat
  | NoPista.nulo, _, _ => 0
  | NoPista.no esquerda pista direita, th, suspeitoAlvo =>
    let count :=
      match encontrarSuspeito th pista with
      | some suspeito => if strcmp suspeito suspeitoAlvo = 0 then 1 else 0
      | none => 0
    count + contarPistasPorSuspeito esquerda th suspeitoAlvo
      + contarPistasPorSuspeito direita th suspeitoAlvo

/-- What `verificarSuspeitoFinal` reports. -/
structure Julgamento where
  pistasExibidas : List CStr
  acusado : CStr
  numPistas : Nat
  casoResolvido : Bool
  deriving DecidableEq, Repr

/-- Source function `verificarSuspeitoFinal(pistasColetadas, th)`, with the name read from the
console as `acusado`. -/
def verificarSuspeitoFinal (pistasColetadas : NoPista) (th : TabelaHash) (acusado : CStr) :
    Julgamento :=
  let numPistas := contarPistasPorSuspeito pistasColetadas th acusado
  { pistasExibidas := exibirPistas pistasColetadas
    acusado := acusado
    numPistas := numPistas
    casoResolvido := decide (numPistas ≥ 2) }

/-! ## The program -/

/-- Source function `criarSala(nome)`: a room without children. -/
def criarSala (nome : CStr) : Sala := Sala.no nome Sala.nulo Sala.nulo

/-- The mansion built in `main`. -/
def hall : Sala :=
  Sala.no (lit "Hall de Entrada")
    (Sala.no (lit "Biblioteca")
      (Sala.no (lit "Escritorio") (criarSala (lit "Adega")) Sala.nulo)
      (Sala.no (lit "Quarto Principal") Sala.nulo (criarSala (lit "Salao de Festas"))))
    (Sala.no (lit "Sala de Jantar")
      (criarSala (lit "Cozinha"))
      (Sala.no (lit "Jardim") Sala.nulo (criarSala (lit "Porao"))))

/-- The pairs `main` inserts into the table, in the order of the calls. -/
def associacoes : List (CStr × CStr) :=
  [ (lit "Pegadas lamacentas", lit "Colonel Mustard"),
    (lit "Livro de venenos aberto", lit "Professor Plum"),
    (lit "Copo com residuo suspeito", lit "Professor Plum"),
    (lit "Faca ensanguentada", lit "Lady Scarlet"),
    (lit "Carta de ameaca", lit "Mrs. White"),
    (lit "Cofre arrombado", lit "Colonel Mustard"),
    (lit "Luvas sujas de terra", lit "Colonel Mustard"),
    (lit "Garrafa de vinho rara", lit "Lady Scarlet"),
    (lit "Lenco com iniciais", lit "Mrs. White"),
    (lit "Ferramenta de arrombamento", lit "Lady Scarlet") ]

/-- A table after a sequence of `inserirNaHash` calls. -/
def inserirVarias (th : TabelaHash) (pares : List (CStr × CStr)) : TabelaHash :=
  pares.foldl (fun t par => inserirNaHash t par.1 par.2) th

/-- The table `main` hands to the exploration and to the judgment. -/
def tabelaHash : TabelaHash :=
  inserirVarias (inicializarHash ⟨fun _ => []⟩) associacoes

/-- Library `isspace` on a character code: blank, tab, line feed, vertical tab,
form feed, carriage return. -/
def isspace (c : Nat) : Bool :=
  decide (c = 32 ∨ (9 ≤ c ∧ c ≤ 13))

/-- The characters that successive calls `scanf(" %c", &escolha)` deliver from
the raw console input: the format skips white space before each character. -/
def semBrancos (stdin : List Nat) : List Nat :=
  stdin.filter fun c => !isspace c

/-- The raw console input left after `n` calls `scanf(" %c", &escolha)`: each
call skips white space and takes one character. -/
def aposLeituras : Nat → List Nat → List Nat
  | 0, stdin => stdin
  | n + 1, stdin => aposLeituras n (stdin.dropWhile isspace).tail

/-- The call `scanf(" %[^\n]", acusado)` of `verificarSuspeitoFinal`: white
space is skipped and the characters up to the end of the line are the name;
`none` when the input ends before any character of a name. -/
def lerAcusado (stdin : List Nat) : Option CStr :=
  match (stdin.dropWhile isspace).takeWhile (fun c => c ≠ 10) with
  | [] => none
  | c :: resto => some (c :: resto)

/-- The run of `main` on the raw console input: `getchar()` takes one
character, the exploration from the hall with an empty ledger reads its
commands, and the judgment reads the accused name from what the exploration
left unread.  `none` when the input ends before a name. -/
def principal (stdin : List Nat) : Option Julgamento :=
  let entrada := stdin.tail
  (explorarSalas hall NoPista.nulo (semBrancos entrada)).bind fun r =>
    (lerAcusado (aposLeituras ((semBrancos entrada).length - r.2.length) entrada)).map
      fun acusado => verificarSuspeitoFinal r.1 tabelaHash acusado

/-! ## Notions used to state the properties -/

/-- Strict order of clue texts: `strcmp a b < 0`. -/
def MenorQue (a b : CStr) : Prop := strcmp a b < 0

instance (a b : CStr) : Decidable (MenorQue a b) := by
  unfold MenorQue; infer_instance

/-- Strictly ascending list of clue texts. -/
def Crescente (l : List CStr) : Prop := l.Pairwise MenorQue

/-- A clue counts for the accused when its lookup gives exactly that name. -/
def apontaPara (th : TabelaHash) (acusado : CStr) (pista : CStr) : Bool :=
  decide (encontrarSuspeito th pista = some acusado)

/-- Room tree of the end-to-end scenario as the specification names it. -/
def casaABC : Sala :=
  Sala.no (lit "A") (criarSala (lit "B")) (criarSala (lit "C"))

/-- Index of the end-to-end scenario as the specification names it. -/
def indiceABC : TabelaHash :=
  inserirVarias (inicializarHash ⟨fun _ => []⟩) [(lit "c1", lit "S1"), (lit "c2", lit "S1")]

/-- Room tree of the end-to-end scenario with two rooms that `obterPistaDaSala` knows. -/
def casaTeste : Sala :=
  Sala.no (lit "A") (criarSala (lit "Biblioteca")) (criarSala (lit "Sala de Jantar"))

/-- Index that maps the clues of those two rooms to the suspect "S1". -/
def indiceTeste : TabelaHash :=
  inserirVarias (inicializarHash ⟨fun _ => []⟩)
    [(lit "Livro de venenos aberto", lit "S1"), (lit "Copo com residuo suspeito", lit "S1")]

/-- Search-tree invariant of the ledger: at every node the texts of the left
subtree compare strictly below the node's text and those of the right subtree
strictly above. -/
def ArvoreDeBusca : NoPista → Prop
  | NoPista.nulo => True
  | NoPista.no esquerda pista direita =>
    (∀ y ∈ exibirPistas esquerda, MenorQue y pista) ∧
    (∀ y ∈ exibirPistas direita, MenorQue pista y) ∧
    ArvoreDeBusca esquerda ∧ ArvoreDeBusca direita

/-- The invariant can be checked on a given tree. -/
def decArvoreDeBusca : (t : NoPista) → Decidable (ArvoreDeBusca t)
  | NoPista.nulo => isTrue trivial
  | NoPista.no esquerda pista direita =>
    have := decArvoreDeBusca esquerda
    have := decArvoreDeBusca direita
    by unfold ArvoreDeBusca; infer_instance

instance (t : NoPista) : Decidable (ArvoreDeBusca t) := decArvoreDeBusca t

/-- A 7-bit text: every character code is below 128, so every `char` of the
text has a non-negative value. -/
def SeteBits (chave : CStr) : Prop := ∀ c ∈ chave, c < 128

instance (chave : CStr) : Decidable (SeteBits chave) := by
  unfold SeteBits; infer_instance

/-- The E/e or D/d branch of `explorarSalas` before the room is entered again:
the call on the child when there is one, and nothing otherwise. -/
def descer (filho : Sala) (p : NoPista) (resto : List Nat) : Option (NoPista × List Nat) :=
  if filho ≠ Sala.nulo then explorarSalas filho p resto else some (p, resto)

/-- The call on a room with the ledger `p` and the input `e` comes back to the
same room with the ledger `q` and the input `f`: zero or more commands E/e or
D/d were read at the room, each excursion returned, and the room is about to
be entered again.  The result of the first call is the result of this last
one. -/
inductive VoltaASala : Sala → NoPista → List Nat → NoPista → List Nat → Prop where
  | aqui (sala : Sala) (p : NoPista) (e : List Nat) : VoltaASala sala p e p e
  | esquerda (nome : CStr) (esq dir : Sala) (p : NoPista) (c : Nat) (resto : List Nat)
      (p1 : NoPista) (e1 : List Nat) (q : NoPista) (f : List Nat) :
      (c = 'e'.toNat ∨ c = 'E'.toNat) →
      descer esq (coletar nome p) resto = some (p1, e1) →
      VoltaASala (Sala.no nome esq dir) p1 e1 q f →
      VoltaASala (Sala.no nome esq dir) p (c :: resto) q f
  | direita (nome : CStr) (esq dir : Sala) (p : NoPista) (c : Nat) (resto : List Nat)
      (p1 : NoPista) (e1 : List Nat) (q : NoPista) (f : List Nat) :
      (c = 'd'.toNat ∨ c = 'D'.toNat) →
      descer dir (coletar nome p) resto = some (p1, e1) →
      VoltaASala (Sala.no nome esq dir) p1 e1 q f →
      VoltaASala (Sala.no nome esq dir) p (c :: resto) q f

/-- Names of the rooms of a room tree, the root first. -/
def salasDe : Sala → List CStr
  | Sala.nulo => []
  | Sala.no nome esquerda direita => nome :: (salasDe esquerda ++ salasDe direita)

/-- The ledger `q` extends the ledger `p` by clues of the rooms `salas` only:
the invariant is kept, no text is lost, and every text is old or is the clue
that `obterPistaDaSala` gives for one of the rooms. -/
def Acumula (salas : List CStr) (p q : NoPista) : Prop :=
  (ArvoreDeBusca p → ArvoreDeBusca q) ∧
  (∀ y ∈ exibirPistas p, y ∈ exibirPistas q) ∧
  (∀ y ∈ exibirPistas q,
    y ∈ exibirPistas p ∨ ∃ nome ∈ salas, obterPistaDaSala nome = some y)

/-! ## Facts about `strcmp` -/

theorem strcmp_self (a : CStr) : strcmp a a = 0 := by
  induction a with
  | nil => rfl
  | cons x s ih => simp [strcmp, ih]

theorem strcmp_eq_zero : ∀ (a b : CStr), strcmp a b = 0 → a = b
  | [], [], _ => rfl
  | [], _ :: _, h => by simp [strcmp] at h
  | _ :: _, [], h => by simp [strcmp] at h
  | x :: s, y :: t, h => by
    simp only [strcmp] at h
    split_ifs at h with h1 h2
    · omega
    · have hxy : x = y := by omega
      rw [hxy, strcmp_eq_zero s t h]

theorem strcmp_eq_zero_iff (a b : CStr) : strcmp a b = 0 ↔ a = b :=
  ⟨strcmp_eq_zero a b, fun h => h ▸ strcmp_self a⟩

theorem strcmp_swap : ∀ (a b : CStr), strcmp b a = - strcmp a b
  | [], [] => rfl
  | [], _ :: _ => rfl
  | _ :: _, [] => rfl
  | x :: s, y :: t => by
    simp only [strcmp]
    split_ifs <;> first | omega | exact strcmp_swap s t

theorem strcmp_trans : ∀ (a b c : CStr), strcmp a b < 0 → strcmp b c < 0 → strcmp a c < 0
  | [], [], _, h, _ => by simp [strcmp] at h
  | [], _ :: _, [], _, h => by simp [strcmp] at h
  | [], _ :: _, _ :: _, _, _ => by simp [strcmp]
  | _ :: _, [], _, h, _ => by simp [strcmp] at h
  | _ :: _, _ :: _, [], _, h => by simp [strcmp] at h
  | x :: s, y :: t, z :: u, h1, h2 => by
    simp only [strcmp] at h1 h2 ⊢
    split_ifs at h1 h2 ⊢ <;> first | omega | exact strcmp_trans s t u h1 h2

theorem menorQue_trans {a b c : CStr} (h1 : MenorQue a b) (h2 : MenorQue b c) : MenorQue a c :=
  strcmp_trans a b c h1 h2

theorem menorQue_irrefl (a : CStr) : ¬ MenorQue a a := by
  simp [MenorQue, strcmp_self]

theorem menorQue_asymm {a b : CStr} (h1 : MenorQue a b) (h2 : MenorQue b a) : False :=
  menorQue_irrefl a (menorQue_trans h1 h2)

theorem menorQue_of_pos {a b : CStr} (h : strcmp a b > 0) : MenorQue b a := by
  unfold MenorQue
  rw [strcmp_swap a b]
  omega

/-! ## Facts about the ledger -/

theorem mem_exibirPistas_inserirPista (t : NoPista) (x y : CStr) :
    y ∈ exibirPistas (inserirPista t x) ↔ y = x ∨ y ∈ exibirPistas t := by
  induction t with
  | nulo => simp [inserirPista, exibirPistas]
  | no l k r ihl ihr =>
    simp only [inserirPista]
    split_ifs with h1 h2
    · simp only [exibirPistas, List.mem_append, List.mem_cons, ihl]; tauto
    · simp only [exibirPistas, List.mem_append, List.mem_cons, ihr]; tauto
    · have hx : x = k := strcmp_eq_zero x k (by omega)
      subst hx
      simp only [exibirPistas, List.mem_append, List.mem_cons]; tauto

theorem crescente_inserirPista (t : NoPista) (x : CStr) (h : Crescente (exibirPistas t)) :
    Crescente (exibirPistas (inserirPista t x)) := by
  induction t with
  | nulo => simp [inserirPista, exibirPistas, Crescente]
  | no l k r ihl ihr =>
    simp only [exibirPistas, Crescente, List.pairwise_append, List.pairwise_cons,
      List.mem_cons] at h
    obtain ⟨hl, ⟨hkr, hr⟩, hlr⟩ := h
    simp only [inserirPista]
    split_ifs with h1 h2
    · simp only [exibirPistas, Crescente, List.pairwise_append, List.pairwise_cons,
        List.mem_cons, mem_exibirPistas_inserirPista]
      refine ⟨ihl hl, ⟨hkr, hr⟩, ?_⟩
      rintro a (rfl | ha) b (rfl | hb)
      · exact h1
      · exact menorQue_trans h1 (hkr b hb)
      · exact hlr a ha _ (Or.inl rfl)
      · exact hlr a ha b (Or.inr hb)
    · have hk : MenorQue k x := menorQue_of_pos h2
      simp only [exibirPistas, Crescente, List.pairwise_append, List.pairwise_cons,
        List.mem_cons, mem_exibirPistas_inserirPista]
      refine ⟨hl, ⟨?_, ihr hr⟩, ?_⟩
      · rintro b (rfl | hb)
        · exact hk
        · exact hkr b hb
      · rintro a ha b (rfl | rfl | hb)
        · exact hlr a ha _ (Or.inl rfl)
        · exact menorQue_trans (hlr a ha _ (Or.inl rfl)) hk
        · exact hlr a ha b (Or.inr hb)
    · simp only [exibirPistas, Crescente, List.pairwise_append, List.pairwise_cons,
        List.mem_cons]
      exact ⟨hl, ⟨hkr, hr⟩, hlr⟩

theorem inserirPista_inserirPista (t : NoPista) (x : CStr) :
    inserirPista (inserirPista t x) x = inserirPista t x := by
  induction t with
  | nulo => simp [inserirPista, strcmp_self]
  | no l k r ihl ihr =>
    simp only [inserirPista]
    split_ifs with h1 h2
    · simp [inserirPista, h1, ihl]
    · simp [inserirPista, h1, h2, ihr]
    · simp [inserirPista, h1, h2]

theorem crescente_inserirTodas (pistas : List CStr) (t : NoPista)
    (h : Crescente (exibirPistas t)) : Crescente (exibirPistas (inserirTodas t pistas)) := by
  induction pistas generalizing t with
  | nil => exact h
  | cons x xs ih => exact ih (inserirPista t x) (crescente_inserirPista t x h)

theorem mem_exibirPistas_inserirTodas (pistas : List CStr) (t : NoPista) (y : CStr) :
    y ∈ exibirPistas (inserirTodas t pistas) ↔ y ∈ pistas ∨ y ∈ exibirPistas t := by
  induction pistas generalizing t with
  | nil => simp [inserirTodas]
  | cons x xs ih =>
    have := ih (inserirPista t x)
    simp only [inserirTodas, List.foldl_cons] at this ⊢
    rw [this, mem_exibirPistas_inserirPista, List.mem_cons]
    tauto

theorem crescente_nodup {l : List CStr} (h : Crescente l) : l.Nodup :=
  haveI : IsIrrefl CStr MenorQue := ⟨menorQue_irrefl⟩
  List.Sorted.nodup h

/-- Two strictly ascending lists with the same members are the same list. -/
theorem crescente_unica {l₁ l₂ : List CStr} (h₁ : Crescente l₁) (h₂ : Crescente l₂)
    (hm : ∀ y, y ∈ l₁ ↔ y ∈ l₂) : l₁ = l₂ :=
  haveI : IsAntisymm CStr MenorQue := ⟨fun _ _ h1 h2 => (menorQue_asymm h1 h2).elim⟩
  List.eq_of_perm_of_sorted
    ((List.perm_ext_iff_of_nodup (crescente_nodup h₁) (crescente_nodup h₂)).2 hm) h₁ h₂

/-! ## Facts about the suspect index -/

theorem buscarNaCadeia_none (cadeia : List NoHash) (k : CStr)
    (h : ∀ e ∈ cadeia, e.pista ≠ k) : buscarNaCadeia cadeia k = none := by
  induction cadeia with
  | nil => rfl
  | cons e resto ih =>
    have he : e.pista ≠ k := h e (List.mem_cons_self _ _)
    have hne : strcmp e.pista k ≠ 0 := fun h0 => he (strcmp_eq_zero _ _ h0)
    simp only [buscarNaCadeia, hne, if_false]
    exact ih (fun e' he' => h e' (List.mem_cons_of_mem _ he'))

theorem encontrarSuspeito_inserirNaHash_mesma (th : TabelaHash) (k v : CStr) :
    encontrarSuspeito (inserirNaHash th k v) k = some v := by
  simp [encontrarSuspeito, inserirNaHash, buscarNaCadeia, strcmp_self]

/-- Every entry of a table built by insertions was there before or carries an inserted key. -/
theorem mem_tabela_inserirVarias (pares : List (CStr × CStr)) (th : TabelaHash)
    (i : Int) (e : NoHash) (h : e ∈ (inserirVarias th pares).tabela i) :
    e ∈ th.tabela i ∨ ∃ par ∈ pares, par.1 = e.pista := by
  induction pares generalizing th with
  | nil => exact Or.inl h
  | cons par resto ih =>
    have h2 := ih (inserirNaHash th par.1 par.2) h
    rcases h2 with h2 | ⟨q, hq, hqe⟩
    · simp only [inserirNaHash] at h2
      split_ifs at h2 with hi
      · rcases List.mem_cons.1 h2 with h3 | h3
        · exact Or.inr ⟨par, List.mem_cons_self _ _, by rw [h3]⟩
        · exact Or.inl (hi ▸ h3)
      · exact Or.inl h2
    · exact Or.inr ⟨q, List.mem_cons_of_mem _ hq, hqe⟩

/-- A lookup is not disturbed by the insertion of another key. -/
theorem encontrarSuspeito_inserirNaHash_outra (th : TabelaHash) (k v k' : CStr)
    (h : k ≠ k') : encontrarSuspeito (inserirNaHash th k v) k' = encontrarSuspeito th k' := by
  simp only [encontrarSuspeito, inserirNaHash]
  split_ifs with hi
  · have hne : strcmp k k' ≠ 0 := fun h0 => h (strcmp_eq_zero _ _ h0)
    simp only [buscarNaCadeia, hne, if_false, hi]
  · rfl

theorem encontrarSuspeito_inserirVarias_outras (pares : List (CStr × CStr)) (th : TabelaHash)
    (k : CStr) (h : ∀ par ∈ pares, par.1 ≠ k) :
    encontrarSuspeito (inserirVarias th pares) k = encontrarSuspeito th k := by
  induction pares generalizing th with
  | nil => rfl
  | cons par resto ih =>
    have h1 := ih (inserirNaHash th par.1 par.2) (fun q hq => h q (List.mem_cons_of_mem _ hq))
    simp only [inserirVarias, List.foldl_cons] at h1 ⊢
    rw [h1]
    exact encontrarSuspeito_inserirNaHash_outra th par.1 par.2 k (h par (List.mem_cons_self _ _))

theorem inserirVarias_append (th : TabelaHash) (a b : List (CStr × CStr)) :
    inserirVarias th (a ++ b) = inserirVarias (inserirVarias th a) b := by
  simp [inserirVarias, List.foldl_append]

/-! ## Facts about the judgment -/

theorem apontaPara_iff (th : TabelaHash) (alvo pista : CStr) :
    apontaPara th alvo pista = true ↔ encontrarSuspeito th pista = some alvo := by
  simp [apontaPara]

theorem contar_no (th : TabelaHash) (alvo pista : CStr) :
    (match encontrarSuspeito th pista with
      | some suspeito => if strcmp suspeito alvo = 0 then 1 else 0
      | none => 0) = if apontaPara th alvo pista = true then 1 else 0 := by
  unfold apontaPara
  cases encontrarSuspeito th pista with
  | none => simp
  | some s =>
    by_cases hs : s = alvo
    · subst hs; simp [strcmp_self]
    · have : strcmp s alvo ≠ 0 := fun h0 => hs (strcmp_eq_zero _ _ h0)
      simp [this, hs]

theorem contar_eq_countP (raiz : NoPista) (th : TabelaHash) (alvo : CStr) :
    contarPistasPorSuspeito raiz th alvo = (exibirPistas raiz).countP (apontaPara th alvo) := by
  induction raiz with
  | nulo => rfl
  | no l k r ihl ihr =>
    simp only [contarPistasPorSuspeito, exibirPistas, List.countP_append, List.countP_cons,
      ihl, ihr, contar_no]
    omega

/-! ## Facts about the exploration -/

theorem coletar_coletar (nome : CStr) (p : NoPista) :
    coletar nome (coletar nome p) = coletar nome p := by
  unfold coletar
  cases obterPistaDaSala nome with
  | none => rfl
  | some pista => exact inserirPista_inserirPista p pista

/-- One step of a call on a room: the character read, and what the call does with it. -/
theorem explorarSalasAux_cons (n : Nat) (nome : CStr) (esq dir : Sala) (p : NoPista)
    (c : Nat) (resto : List Nat) :
    explorarSalasAux (n + 1) (Sala.no nome esq dir) p (c :: resto) =
      if c = 'e'.toNat ∨ c = 'E'.toNat then
        (if esq ≠ Sala.nulo then explorarSalasAux n esq (coletar nome p) resto
          else some (coletar nome p, resto)).bind
          fun r => explorarSalasAux n (Sala.no nome esq dir) r.1 r.2
      else if c = 'd'.toNat ∨ c = 'D'.toNat then
        (if dir ≠ Sala.nulo then explorarSalasAux n dir (coletar nome p) resto
          else some (coletar nome p, resto)).bind
          fun r => explorarSalasAux n (Sala.no nome esq dir) r.1 r.2
      else some (coletar nome p, resto) := by
  rw [explorarSalasAux]

/-- With a depth bound above the length of the input the call returns, and it
leaves no more input than it was given. -/
theorem explorarSalasAux_some (n : Nat) : ∀ (s : Sala) (p : NoPista) (e : List Nat),
    e.length < n → ∃ r, explorarSalasAux n s p e = some r ∧ r.2.length ≤ e.length := by
  induction n with
  | zero => intro s p e h; omega
  | succ n ih =>
    intro s p e h
    cases s with
    | nulo => exact ⟨(p, e), by simp [explorarSalasAux], le_refl _⟩
    | no nome esq dir =>
      cases e with
      | nil => exact ⟨(coletar nome p, []), by simp [explorarSalasAux], le_refl _⟩
      | cons c resto =>
        have hlen : resto.length < n := by simp only [List.length_cons] at h; omega
        have desce : ∀ filho : Sala, ∃ r,
            ((if filho ≠ Sala.nulo then explorarSalasAux n filho (coletar nome p) resto
              else some (coletar nome p, resto)).bind
              fun r => explorarSalasAux n (Sala.no nome esq dir) r.1 r.2) = some r ∧
            r.2.length ≤ (c :: resto).length := by
          intro filho
          have h1 : ∃ r1, (if filho ≠ Sala.nulo then
              explorarSalasAux n filho (coletar nome p) resto
              else some (coletar nome p, resto)) = some r1 ∧ r1.2.length ≤ resto.length := by
            split_ifs
            · exact ih filho _ resto hlen
            · exact ⟨_, rfl, le_refl _⟩
          obtain ⟨r1, hr1, hl1⟩ := h1
          obtain ⟨r2, hr2, hl2⟩ := ih (Sala.no nome esq dir) r1.1 r1.2 (by omega)
          refine ⟨r2, ?_, ?_⟩
          · rw [hr1]; exact hr2
          · simp only [List.length_cons]; omega
        rw [explorarSalasAux_cons]
        by_cases he : c = 'e'.toNat ∨ c = 'E'.toNat
        · rw [if_pos he]; exact desce esq
        · rw [if_neg he]
          by_cases hd : c = 'd'.toNat ∨ c = 'D'.toNat
          · rw [if_pos hd]; exact desce dir
          · rw [if_neg hd]; exact ⟨_, rfl, by simp⟩

/-- A larger depth bound does not change a result. -/
theorem explorarSalasAux_succ (n : Nat) : ∀ (s : Sala) (p : NoPista) (e : List Nat)
    (r : NoPista × List Nat), explorarSalasAux n s p e = some r →
    explorarSalasAux (n + 1) s p e = some r := by
  induction n with
  | zero => intro s p e r h; simp [explorarSalasAux] at h
  | succ n ih =>
    intro s p e r h
    cases s with
    | nulo => simpa [explorarSalasAux] using h
    | no nome esq dir =>
      cases e with
      | nil => simpa [explorarSalasAux] using h
      | cons c resto =>
        have desce : ∀ filho : Sala,
            ((if filho ≠ Sala.nulo then explorarSalasAux n filho (coletar nome p) resto
              else some (coletar nome p, resto)).bind
              fun r => explorarSalasAux n (Sala.no nome esq dir) r.1 r.2) = some r →
            ((if filho ≠ Sala.nulo then explorarSalasAux (n + 1) filho (coletar nome p) resto
              else some (coletar nome p, resto)).bind
              fun r => explorarSalasAux (n + 1) (Sala.no nome esq dir) r.1 r.2) = some r := by
          intro filho hf
          obtain ⟨r1, hr1, hr2⟩ := Option.bind_eq_some.1 hf
          apply Option.bind_eq_some.2
          refine ⟨r1, ?_, ih _ _ _ _ hr2⟩
          split_ifs at hr1 ⊢
          · exact ih _ _ _ _ hr1
          · exact hr1
        rw [explorarSalasAux_cons] at h ⊢
        by_cases he : c = 'e'.toNat ∨ c = 'E'.toNat
        · rw [if_pos he] at h ⊢; exact desce esq h
        · rw [if_neg he] at h ⊢
          by_cases hd : c = 'd'.toNat ∨ c = 'D'.toNat
          · rw [if_pos hd] at h ⊢; exact desce dir h
          · rw [if_neg hd] at h ⊢; exact h

/-- Any depth bound above the length of the input gives the result of `explorarSalas`. -/
theorem explorarSalasAux_eq (n : Nat) (s : Sala) (p : NoPista) (e : List Nat)
    (h : e.length < n) : explorarSalasAux n s p e = explorarSalas s p e := by
  obtain ⟨r, hr, _⟩ := explorarSalasAux_some (e.length + 1) s p e (Nat.lt_succ_self _)
  have sobe : ∀ k, explorarSalasAux (e.length + 1 + k) s p e = some r := by
    intro k
    induction k with
    | zero => exact hr
    | succ k ihk => exact explorarSalasAux_succ _ s p e r ihk
  have hn : n = e.length + 1 + (n - (e.length + 1)) := by omega
  rw [explorarSalas, hr, hn]
  exact sobe _

theorem explorarSalas_some (s : Sala) (p : NoPista) (e : List Nat) :
    ∃ r, explorarSalas s p e = some r ∧ r.2.length ≤ e.length :=
  explorarSalasAux_some _ s p e (Nat.lt_succ_self _)

/-! ## Facts about the search-tree invariant -/

theorem arvoreDeBusca_iff_crescente (t : NoPista) :
    ArvoreDeBusca t ↔ Crescente (exibirPistas t) := by
  induction t with
  | nulo => simp [ArvoreDeBusca, exibirPistas, Crescente]
  | no l k r ihl ihr =>
    simp only [ArvoreDeBusca, exibirPistas, Crescente, List.pairwise_append,
      List.pairwise_cons, List.mem_cons, ihl, ihr]
    constructor
    · rintro ⟨hl, hr, hL, hR⟩
      refine ⟨hL, ⟨hr, hR⟩, ?_⟩
      rintro a ha b (rfl | hb)
      · exact hl a ha
      · exact menorQue_trans (hl a ha) (hr b hb)
    · rintro ⟨hL, ⟨hr, hR⟩, hlr⟩
      exact ⟨fun a ha => hlr a ha k (Or.inl rfl), hr, hL, hR⟩

theorem arvoreDeBusca_inserirPista (t : NoPista) (x : CStr) (h : ArvoreDeBusca t) :
    ArvoreDeBusca (inserirPista t x) :=
  (arvoreDeBusca_iff_crescente _).2
    (crescente_inserirPista t x ((arvoreDeBusca_iff_crescente t).1 h))

/-- In a search tree the insertion of a text that is present changes nothing. -/
theorem inserirPista_presente (t : NoPista) (x : CStr) (h : ArvoreDeBusca t)
    (hx : x ∈ exibirPistas t) : inserirPista t x = t := by
  induction t with
  | nulo => simp [exibirPistas] at hx
  | no l k r ihl ihr =>
    obtain ⟨hl, hr, hL, hR⟩ := h
    simp only [exibirPistas, List.mem_append, List.mem_cons] at hx
    simp only [inserirPista]
    split_ifs with h1 h2
    · rcases hx with hx | rfl | hx
      · rw [ihl hL hx]
      · exact absurd h1 (menorQue_irrefl x)
      · exact (menorQue_asymm h1 (hr x hx)).elim
    · have hk : MenorQue k x := menorQue_of_pos h2
      rcases hx with hx | rfl | hx
      · exact (menorQue_asymm hk (hl x hx)).elim
      · exact absurd hk (menorQue_irrefl x)
      · rw [ihr hR hx]
    · rfl

/-- An insertion returns the tree itself or adds exactly one node, with the text inserted. -/
theorem inserirPista_igual_ou_perm (t : NoPista) (x : CStr) :
    inserirPista t x = t ∨ (exibirPistas (inserirPista t x)).Perm (x :: exibirPistas t) := by
  induction t with
  | nulo => exact Or.inr (by simp [inserirPista, exibirPistas])
  | no l k r ihl ihr =>
    simp only [inserirPista]
    split_ifs with h1 h2
    · rcases ihl with h | h
      · exact Or.inl (by rw [h])
      · refine Or.inr ?_
        simp only [exibirPistas]
        exact (h.append_right _).trans (by simp)
    · rcases ihr with h | h
      · exact Or.inl (by rw [h])
      · refine Or.inr ?_
        simp only [exibirPistas]
        have h3 : (exibirPistas l ++ k :: exibirPistas (inserirPista r x)).Perm
            (exibirPistas l ++ k :: x :: exibirPistas r) :=
          List.Perm.append_left _ (List.Perm.cons k h)
        refine h3.trans ?_
        have h4 : (exibirPistas l ++ k :: x :: exibirPistas r).Perm
            (exibirPistas l ++ x :: k :: exibirPistas r) :=
          List.Perm.append_left _ (List.Perm.swap x k _)
        exact h4.trans List.perm_middle
    · exact Or.inl rfl

/-! ## Facts about the hash function -/

theorem foldl_soma (chave : List Nat) (h : Nat) :
    chave.foldl (fun hash c => hash + c) h = h + chave.sum := by
  induction chave generalizing h with
  | nil => simp
  | cons c cs ih => simp [ih, Nat.add_assoc]

theorem foldl_soma_int (chave : List Nat) (h : Nat) :
    (chave.map Int.ofNat).foldl (fun hash c => hash + c) (h : Int) =
      ((chave.foldl (fun hash c => hash + c) h : Nat) : Int) := by
  induction chave generalizing h with
  | nil => simp
  | cons c cs ih =>
    simp only [List.map_cons, List.foldl_cons]
    have := ih (h + c)
    simpa using this

/-- On keys whose characters have non-negative values the source arithmetic
gives the sum of the values modulo `TAM_HASH`. -/
theorem funcaoHashInt_ofNat (chave : List Nat) :
    funcaoHashInt (chave.map Int.ofNat) = ((chave.sum % TAM_HASH : Nat) : Int) := by
  unfold funcaoHashInt
  have h := foldl_soma_int chave 0
  simp only [Nat.cast_zero] at h
  rw [h, foldl_soma]
  simp [Int.tmod, TAM_HASH]

theorem map_valorChar_seteBits (chave : CStr) (h : SeteBits chave) :
    chave.map valorChar = chave.map Int.ofNat := by
  apply List.map_congr_left
  intro c hc
  simp [valorChar, h c hc]

/-- For a 7-bit key `funcaoHash` is the sum of the character codes modulo
`TAM_HASH`, an index into the array of the table. -/
theorem funcaoHash_seteBits (chave : CStr) (h : SeteBits chave) :
    funcaoHash chave = ((chave.sum % TAM_HASH : Nat) : Int) ∧
    0 ≤ funcaoHash chave ∧ funcaoHash chave < (TAM_HASH : Int) := by
  have h1 : funcaoHash chave = ((chave.sum % TAM_HASH : Nat) : Int) := by
    unfold funcaoHash
    rw [map_valorChar_seteBits chave h, funcaoHashInt_ofNat]
  have h2 : chave.sum % TAM_HASH < TAM_HASH := Nat.mod_lt _ (by decide)
  refine ⟨h1, ?_, ?_⟩
  · rw [h1]; exact Int.ofNat_nonneg _
  · rw [h1]; exact Int.ofNat_lt.2 h2

/-- In a table built from `inicializarHash` by insertions, a key that was not
inserted and whose index is inside the array, as that of every 7-bit key is
(`funcaoHash_seteBits`), is not found. -/
theorem encontrarSuspeito_nunca_inserida_na_tabela (th0 : TabelaHash)
    (pares : List (CStr × CStr)) (k : CStr)
    (hk : 0 ≤ funcaoHash k ∧ funcaoHash k < (TAM_HASH : Int))
    (h : ∀ par ∈ pares, par.1 ≠ k) :
    encontrarSuspeito (inserirVarias (inicializarHash th0) pares) k = none := by
  apply buscarNaCadeia_none
  intro e he hke
  rcases mem_tabela_inserirVarias pares _ _ e he with h1 | ⟨par, hpar, hpe⟩
  · simp [inicializarHash, hk] at h1
  · exact h par hpar (hpe.trans hke)

/-! ## Facts about a lookup miss -/

theorem contar_inserirPista_sem_suspeito (t : NoPista) (th : TabelaHash) (a c : CStr)
    (h : encontrarSuspeito th c = none) :
    contarPistasPorSuspeito (inserirPista t c) th a = contarPistasPorSuspeito t th a := by
  induction t with
  | nulo => simp [inserirPista, contarPistasPorSuspeito, h]
  | no l k r ihl ihr =>
    simp only [inserirPista]
    split_ifs with h1 h2
    · simp only [contarPistasPorSuspeito, ihl]
    · simp only [contarPistasPorSuspeito, ihr]
    · rfl

/-! ## Facts about excursions from a room -/

/-- What a call on a room does with the character it reads, in terms of the
calls it makes. -/
theorem explorarSalas_cons (nome : CStr) (esq dir : Sala) (p : NoPista) (c : Nat)
    (resto : List Nat) :
    explorarSalas (Sala.no nome esq dir) p (c :: resto) =
      if c = 'e'.toNat ∨ c = 'E'.toNat then
        (descer esq (coletar nome p) resto).bind
          fun r => explorarSalas (Sala.no nome esq dir) r.1 r.2
      else if c = 'd'.toNat ∨ c = 'D'.toNat then
        (descer dir (coletar nome p) resto).bind
          fun r => explorarSalas (Sala.no nome esq dir) r.1 r.2
      else some (coletar nome p, resto) := by
  have ramo : ∀ filho : Sala,
      ((if filho ≠ Sala.nulo then
          explorarSalasAux (resto.length + 1) filho (coletar nome p) resto
        else some (coletar nome p, resto)).bind
        fun r => explorarSalasAux (resto.length + 1) (Sala.no nome esq dir) r.1 r.2) =
      (descer filho (coletar nome p) resto).bind
        fun r => explorarSalas (Sala.no nome esq dir) r.1 r.2 := by
    intro filho
    have h1 : ∃ r1, descer filho (coletar nome p) resto = some r1 ∧
        r1.2.length ≤ resto.length := by
      unfold descer
      split_ifs
      · exact explorarSalas_some filho _ resto
      · exact ⟨_, rfl, le_refl _⟩
    obtain ⟨r1, hr1, hl1⟩ := h1
    have hr1' := hr1
    unfold descer explorarSalas at hr1'
    rw [hr1, hr1']
    simp only [Option.some_bind]
    exact explorarSalasAux_eq _ _ _ _ (by omega)
  simp only [explorarSalas, List.length_cons]
  rw [explorarSalasAux_cons, ramo esq, ramo dir]
  rfl

/-- The result of a call is the result of the call it comes back to. -/
theorem explorarSalas_voltaASala (sala : Sala) (p : NoPista) (e : List Nat) (q : NoPista)
    (f : List Nat) (h : VoltaASala sala p e q f) :
    explorarSalas sala p e = explorarSalas sala q f := by
  induction h with
  | aqui => rfl
  | esquerda nome esq dir p c resto p1 e1 q f hc hd _ ih =>
    rw [explorarSalas_cons, if_pos hc, hd]
    exact ih
  | direita nome esq dir p c resto p1 e1 q f hc hd _ ih =>
    have he : ¬ (c = 'e'.toNat ∨ c = 'E'.toNat) := by
      rcases hc with rfl | rfl <;> decide
    rw [explorarSalas_cons, if_neg he, if_pos hc, hd]
    exact ih

theorem semBrancos_cons (c : Nat) (resto : List Nat) (h : isspace c = false) :
    semBrancos (c :: resto) = c :: semBrancos resto := by
  simp [semBrancos, h]

/-! ## Facts about what the exploration collects -/

theorem acumula_refl (salas : List CStr) (p : NoPista) : Acumula salas p p :=
  ⟨id, fun _ h => h, fun _ h => Or.inl h⟩

theorem acumula_trans {salas : List CStr} {p q r : NoPista} (h1 : Acumula salas p q)
    (h2 : Acumula salas q r) : Acumula salas p r := by
  refine ⟨fun h => h2.1 (h1.1 h), fun y hy => h2.2.1 y (h1.2.1 y hy), fun y hy => ?_⟩
  rcases h2.2.2 y hy with h | h
  · exact h1.2.2 y h
  · exact Or.inr h

theorem acumula_mono {salas outras : List CStr} {p q : NoPista}
    (hs : ∀ nome ∈ salas, nome ∈ outras) (h : Acumula salas p q) : Acumula outras p q := by
  refine ⟨h.1, h.2.1, fun y hy => ?_⟩
  rcases h.2.2 y hy with h1 | ⟨nome, hn, hc⟩
  · exact Or.inl h1
  · exact Or.inr ⟨nome, hs nome hn, hc⟩

theorem acumula_coletar (nome : CStr) (p : NoPista) : Acumula [nome] p (coletar nome p) := by
  unfold coletar
  cases hc : obterPistaDaSala nome with
  | none => exact acumula_refl _ p
  | some c =>
    refine ⟨arvoreDeBusca_inserirPista p c, fun y hy => ?_, fun y hy => ?_⟩
    · exact (mem_exibirPistas_inserirPista p c y).2 (Or.inr hy)
    · rcases (mem_exibirPistas_inserirPista p c y).1 hy with rfl | h
      · exact Or.inr ⟨nome, List.mem_singleton.2 rfl, hc⟩
      · exact Or.inl h

/-- Whatever a call returns extends the incoming ledger by clues of rooms of
the subtree of the starting room. -/
theorem explorarSalasAux_acumula (n : Nat) : ∀ (s : Sala) (p : NoPista) (e : List Nat)
    (r : NoPista × List Nat), explorarSalasAux n s p e = some r →
    Acumula (salasDe s) p r.1 := by
  induction n with
  | zero => intro s p e r h; simp [explorarSalasAux] at h
  | succ n ih =>
    intro s p e r h
    cases s with
    | nulo =>
      simp only [explorarSalasAux, Option.some.injEq] at h
      subst h
      exact acumula_refl _ p
    | no nome esq dir =>
      have entra : Acumula (salasDe (Sala.no nome esq dir)) p (coletar nome p) :=
        acumula_mono (fun x hx => by
          rw [List.mem_singleton.1 hx]; simp [salasDe]) (acumula_coletar nome p)
      cases e with
      | nil =>
        simp only [explorarSalasAux, Option.some.injEq] at h
        subst h
        exact entra
      | cons c resto =>
        have desce : ∀ filho : Sala, (∀ x ∈ salasDe filho, x ∈ salasDe (Sala.no nome esq dir)) →
            ((if filho ≠ Sala.nulo then explorarSalasAux n filho (coletar nome p) resto
              else some (coletar nome p, resto)).bind
              fun r => explorarSalasAux n (Sala.no nome esq dir) r.1 r.2) = some r →
            Acumula (salasDe (Sala.no nome esq dir)) p r.1 := by
          intro filho hsub hf
          obtain ⟨r1, hr1, hr2⟩ := Option.bind_eq_some.1 hf
          have h1 : Acumula (salasDe (Sala.no nome esq dir)) (coletar nome p) r1.1 := by
            split_ifs at hr1
            · exact acumula_mono hsub (ih _ _ _ _ hr1)
            · simp only [Option.some.injEq] at hr1
              subst hr1
              exact acumula_refl _ _
          exact acumula_trans entra (acumula_trans h1 (ih _ _ _ _ hr2))
        rw [explorarSalasAux_cons] at h
        by_cases he : c = 'e'.toNat ∨ c = 'E'.toNat
        · rw [if_pos he] at h
          exact desce esq (fun x hx => by simp [salasDe, hx]) h
        · rw [if_neg he] at h
          by_cases hd : c = 'd'.toNat ∨ c = 'D'.toNat
          · rw [if_pos hd] at h
            exact desce dir (fun x hx => by simp [salasDe, hx]) h
          · rw [if_neg hd] at h
            simp only [Option.some.injEq] at h
            subst h
            exact entra

/-- The clue of the starting room is in the ledger a call returns. -/
theorem explorarSalasAux_pista_da_sala (n : Nat) (nome : CStr) (esq dir : Sala) (c : CStr)
    (hc : obterPistaDaSala nome = some c) : ∀ (p : NoPista) (e : List Nat)
    (r : NoPista × List Nat), explorarSalasAux n (Sala.no nome esq dir) p e = some r →
    c ∈ exibirPistas r.1 := by
  have entra : ∀ p : NoPista, c ∈ exibirPistas (coletar nome p) := by
    intro p
    simp only [coletar, hc]
    exact (mem_exibirPistas_inserirPista p c c).2 (Or.inl rfl)
  induction n with
  | zero => intro p e r h; simp [explorarSalasAux] at h
  | succ n ih =>
    intro p e r h
    cases e with
    | nil =>
      simp only [explorarSalasAux, Option.some.injEq] at h
      subst h
      exact entra p
    | cons ch resto =>
      rw [explorarSalasAux_cons] at h
      by_cases he : ch = 'e'.toNat ∨ ch = 'E'.toNat
      · rw [if_pos he] at h
        obtain ⟨r1, _, hr2⟩ := Option.bind_eq_some.1 h
        exact ih _ _ _ hr2
      · rw [if_neg he] at h
        by_cases hd : ch = 'd'.toNat ∨ ch = 'D'.toNat
        · rw [if_pos hd] at h
          obtain ⟨r1, _, hr2⟩ := Option.bind_eq_some.1 h
          exact ih _ _ _ hr2
        · rw [if_neg hd] at h
          simp only [Option.some.injEq] at h
          subst h
          exact entra p

/-- A call on a room that has a character to read returns with that character consumed. -/
theorem explorarSalas_consome (nome : CStr) (esq dir : Sala) (p : NoPista) (c : Nat)
    (resto : List Nat) :
    ∃ r, explorarSalas (Sala.no nome esq dir) p (c :: resto) = some r ∧
      r.2.length ≤ resto.length := by
  have desce : ∀ filho : Sala, ∃ r,
      ((if filho ≠ Sala.nulo then
          explorarSalasAux (resto.length + 1) filho (coletar nome p) resto
        else some (coletar nome p, resto)).bind
        fun r => explorarSalasAux (resto.length + 1) (Sala.no nome esq dir) r.1 r.2) = some r ∧
      r.2.length ≤ resto.length := by
    intro filho
    have h1 : ∃ r1, (if filho ≠ Sala.nulo then
        explorarSalasAux (resto.length + 1) filho (coletar nome p) resto
        else some (coletar nome p, resto)) = some r1 ∧ r1.2.length ≤ resto.length := by
      split_ifs
      · exact explorarSalasAux_some _ filho _ resto (Nat.lt_succ_self _)
      · exact ⟨_, rfl, le_refl _⟩
    obtain ⟨r1, hr1, hl1⟩ := h1
    obtain ⟨r2, hr2, hl2⟩ :=
      explorarSalasAux_some (resto.length + 1) (Sala.no nome esq dir) r1.1 r1.2 (by omega)
    exact ⟨r2, by rw [hr1]; exact hr2, by omega⟩
  simp only [explorarSalas, List.length_cons]
  rw [explorarSalasAux_cons]
  by_cases he : c = 'e'.toNat ∨ c = 'E'.toNat
  · rw [if_pos he]; exact desce esq
  · rw [if_neg he]
    by_cases hd : c = 'd'.toNat ∨ c = 'D'.toNat
    · rw [if_pos hd]; exact desce dir
    · rw [if_neg hd]; exact ⟨_, rfl, le_refl _⟩

/-! ## The claims -/

/-- C1: for every sequence of clue texts inserted one by one from the empty
ledger, the in-order listing is strictly ascending under `strcmp`, has no
duplicate, has exactly the inserted texts as members, is the only strictly
ascending list with those members, and is the same for every permutation of
the insertion sequence. -/
theorem exibirPistas_inserirTodas (pistas : List CStr) :
    Crescente (exibirPistas (inserirTodas NoPista.nulo pistas)) ∧
    (exibirPistas (inserirTodas NoPista.nulo pistas)).Nodup ∧
    (∀ y, y ∈ exibirPistas (inserirTodas NoPista.nulo pistas) ↔ y ∈ pistas) ∧
    (∀ l : List CStr, Crescente l → (∀ y, y ∈ l ↔ y ∈ pistas) →
      l = exibirPistas (inserirTodas NoPista.nulo pistas)) ∧
    (∀ outras : List CStr, outras.Perm pistas →
      exibirPistas (inserirTodas NoPista.nulo outras) =
        exibirPistas (inserirTodas NoPista.nulo pistas)) := by
  have hc : ∀ ps : List CStr, Crescente (exibirPistas (inserirTodas NoPista.nulo ps)) :=
    fun ps => crescente_inserirTodas ps NoPista.nulo (by simp [exibirPistas, Crescente])
  have hm : ∀ (ps : List CStr) (y : CStr),
      y ∈ exibirPistas (inserirTodas NoPista.nulo ps) ↔ y ∈ ps := by
    intro ps y
    rw [mem_exibirPistas_inserirTodas]
    simp [exibirPistas]
  refine ⟨hc pistas, crescente_nodup (hc pistas), hm pistas, ?_, ?_⟩
  · intro l hl hlm
    exact crescente_unica hl (hc pistas) (fun y => by rw [hlm, hm])
  · intro outras hperm
    exact crescente_unica (hc outras) (hc pistas) (fun y => by rw [hm, hm, hperm.mem_iff])

/-- C2: for every ledger tree and every clue text, inserting the text a second
time gives the same tree, hence the same in-order listing, as inserting it
once. -/
theorem exibirPistas_inserirPista_repetida (t : NoPista) (x : CStr) :
    exibirPistas (inserirPista (inserirPista t x) x) = exibirPistas (inserirPista t x) := by
  rw [inserirPista_inserirPista]

/-- C3: for every table, every 7-bit key and every value, the index of the key
is inside the array of the table, and the lookup of the key right after its
insertion returns the inserted value, whatever the table held before (an
earlier value of the same key included); and after any run of insertions of
7-bit keys the lookup returns the value of the most recent insertion of the
key. -/
theorem encontrarSuspeito_inserirNaHash (th : TabelaHash) (k v : CStr) (hk : SeteBits k) :
    (0 ≤ funcaoHash k ∧ funcaoHash k < (TAM_HASH : Int)) ∧
    encontrarSuspeito (inserirNaHash th k v) k = some v ∧
    (∀ v0 : CStr, encontrarSuspeito (inserirNaHash (inserirNaHash th k v0) k v) k = some v) ∧
    (∀ antes depois : List (CStr × CStr), (∀ par ∈ antes ++ depois, SeteBits par.1) →
      (∀ par ∈ depois, par.1 ≠ k) →
      encontrarSuspeito (inserirVarias th (antes ++ (k, v) :: depois)) k = some v) := by
  refine ⟨(funcaoHash_seteBits k hk).2, encontrarSuspeito_inserirNaHash_mesma th k v,
    fun v0 => encontrarSuspeito_inserirNaHash_mesma _ k v, ?_⟩
  intro antes depois _ h
  rw [inserirVarias_append]
  have h1 := encontrarSuspeito_inserirVarias_outras depois
    (inserirNaHash (inserirVarias th antes) k v) k h
  simp only [inserirVarias, List.foldl_cons] at h1 ⊢
  rw [h1]
  exact encontrarSuspeito_inserirNaHash_mesma _ k v

/-- Witness of C3: the key "ab" is inserted twice, and the colliding key "ba"
after it; the lookup of "ab" returns the value of its last insertion. -/
theorem encontrarSuspeito_inserirNaHash_witness :
    SeteBits (lit "ab") ∧
    encontrarSuspeito
      (inserirVarias (inicializarHash ⟨fun _ => []⟩)
        ([(lit "ab", lit "X")] ++ (lit "ab", lit "Y") :: [(lit "ba", lit "Z")]))
      (lit "ab") = some (lit "Y") :=
  ⟨by decide,
   (encontrarSuspeito_inserirNaHash (inicializarHash ⟨fun _ => []⟩) (lit "ab") (lit "Y")
     (by decide)).2.2.2 [(lit "ab", lit "X")] [(lit "ba", lit "Z")] (by decide) (by decide)⟩

/-- C4 at the failing input: the key with the single byte 0xE9 has the index
-3, outside the array, and `inicializarHash` does not write the word there, so
the lookup of that key in a table fresh from `inicializarHash` scans whatever
chain the word next to the array points to; when that is an entry for the key
with the suspect "X", the lookup of the never-inserted key, also after the
insertion of another key, returns "X" and not not-found. -/
theorem encontrarSuspeito_fora_da_tabela :
    funcaoHash [233] = -3 ∧
    (∀ th0 : TabelaHash,
      encontrarSuspeito (inicializarHash th0) [233] = buscarNaCadeia (th0.tabela (-3)) [233]) ∧
    encontrarSuspeito
      (inicializarHash ⟨fun i => if i = -3 then [⟨[233], lit "X"⟩] else []⟩) [233] =
      some (lit "X") ∧
    encontrarSuspeito
      (inserirVarias (inicializarHash ⟨fun i => if i = -3 then [⟨[233], lit "X"⟩] else []⟩)
        [(lit "ab", lit "Y")]) [233] = some (lit "X") := by
  have h : funcaoHash [233] = -3 := by decide
  refine ⟨h, fun th0 => ?_, by decide, by decide⟩
  simp [encontrarSuspeito, inicializarHash, h]

/-- C5: for every ledger, table and accused name, `contarPistasPorSuspeito` is
the number of clue nodes whose lookup returns exactly the accused name: the
length of the in-order listing filtered by that test. -/
theorem contarPistasPorSuspeito_eq (raiz : NoPista) (th : TabelaHash) (acusado : CStr) :
    contarPistasPorSuspeito raiz th acusado =
      ((exibirPistas raiz).filter
        (fun pista => decide (encontrarSuspeito th pista = some acusado))).length := by
  rw [contar_eq_countP, List.countP_eq_length_filter]
  rfl

/-- C6: the verdict of the judgment is "solved" exactly when the match count
of the accused name is at least 2, that is when at least two clues of the
in-order listing resolve to the accused name; with one or no such clue the
verdict is "not solved". -/
theorem verificarSuspeitoFinal_casoResolvido (pistas : NoPista) (th : TabelaHash)
    (acusado : CStr) :
    (verificarSuspeitoFinal pistas th acusado).numPistas =
      contarPistasPorSuspeito pistas th acusado ∧
    ((verificarSuspeitoFinal pistas th acusado).casoResolvido = true ↔
      2 ≤ contarPistasPorSuspeito pistas th acusado) ∧
    ((verificarSuspeitoFinal pistas th acusado).casoResolvido = true ↔
      2 ≤ ((exibirPistas pistas).filter
        (fun pista => decide (encontrarSuspeito th pista = some acusado))).length) ∧
    (((exibirPistas pistas).filter
        (fun pista => decide (encontrarSuspeito th pista = some acusado))).length ≤ 1 →
      (verificarSuspeitoFinal pistas th acusado).casoResolvido = false) := by
  have hc : contarPistasPorSuspeito pistas th acusado =
      ((exibirPistas pistas).filter
        (fun pista => decide (encontrarSuspeito th pista = some acusado))).length := by
    rw [contar_eq_countP, List.countP_eq_length_filter]
    rfl
  refine ⟨rfl, ?_, ?_, ?_⟩
  · simp [verificarSuspeitoFinal]
  · rw [← hc]; simp [verificarSuspeitoFinal]
  · intro h1
    rw [← hc] at h1
    simp only [verificarSuspeitoFinal, decide_eq_false_iff_not]
    omega

/-- C7: at a room without a left child the command E/e, and at a room without
a right child the command D/d, does not fail and leaves the engine at the same
room: the rest of the input is interpreted at that room, with the ledger as it
was after the room was entered (entering the room again changes nothing). -/
theorem explorarSalas_caminho_inexistente (nome : CStr) (esq dir : Sala) (p : NoPista)
    (c : Nat) (resto : List Nat)
    (h : ((c = 'e'.toNat ∨ c = 'E'.toNat) ∧ esq = Sala.nulo) ∨
         ((c = 'd'.toNat ∨ c = 'D'.toNat) ∧ dir = Sala.nulo)) :
    explorarSalas (Sala.no nome esq dir) p (c :: resto) =
      explorarSalas (Sala.no nome esq dir) (coletar nome p) resto ∧
    coletar nome (coletar nome p) = coletar nome p ∧
    exibirPistas (coletar nome (coletar nome p)) = exibirPistas (coletar nome p) ∧
    (∃ r, explorarSalas (Sala.no nome esq dir) p (c :: resto) = some r) := by
  refine ⟨?_, coletar_coletar nome p, by rw [coletar_coletar], ?_⟩
  · simp only [explorarSalas, List.length_cons]
    rw [explorarSalasAux_cons]
    rcases h with ⟨hc, hn⟩ | ⟨hc, hn⟩
    · subst hn
      rw [if_pos hc]
      simp
    · subst hn
      have he : ¬ (c = 'e'.toNat ∨ c = 'E'.toNat) := by
        rcases hc with rfl | rfl <;> decide
      rw [if_neg he, if_pos hc]
      simp
  · obtain ⟨r, hr, _⟩ := explorarSalas_some (Sala.no nome esq dir) p (c :: resto)
    exact ⟨r, hr⟩

/-- Witness of C7: E at the childless room "Adega", with more input to come. -/
theorem explorarSalas_caminho_inexistente_witness :
    explorarSalas (criarSala (lit "Adega")) NoPista.nulo ('E'.toNat :: lit "dS") =
      explorarSalas (criarSala (lit "Adega")) (coletar (lit "Adega") NoPista.nulo) (lit "dS") ∧
    coletar (lit "Adega") (coletar (lit "Adega") NoPista.nulo) =
      coletar (lit "Adega") NoPista.nulo ∧
    exibirPistas (coletar (lit "Adega") (coletar (lit "Adega") NoPista.nulo)) =
      exibirPistas (coletar (lit "Adega") NoPista.nulo) ∧
    (∃ r, explorarSalas (criarSala (lit "Adega")) NoPista.nulo ('E'.toNat :: lit "dS") = some r) :=
  explorarSalas_caminho_inexistente (lit "Adega") Sala.nulo Sala.nulo NoPista.nulo
    'E'.toNat (lit "dS") (Or.inl ⟨Or.inr rfl, rfl⟩)

/-- C8, as stated, fails: in the run E, S, D, S, S from the hall the command S
is entered at "Biblioteca" with the ledger holding two clues; the exploration
does not end there: the commands D, S, S are still read and the ledger that
reaches the judgment holds a third clue. -/
theorem explorarSalas_sair_na_biblioteca :
    exibirPistas (coletar (lit "Biblioteca") (coletar (lit "Hall de Entrada") NoPista.nulo)) =
      [lit "Livro de venenos aberto", lit "Pegadas lamacentas"] ∧
    (explorarSalas hall NoPista.nulo (lit "ESDSS")).map
        (fun r => (exibirPistas r.1, r.2)) =
      some ([lit "Copo com residuo suspeito", lit "Livro de venenos aberto",
        lit "Pegadas lamacentas"], []) ∧
    (principal (lit "\nE\nS\nD\nS\nS\nProfessor Plum\n")).map (fun j => j.pistasExibidas) =
      some [lit "Copo com residuo suspeito", lit "Livro de venenos aberto",
        lit "Pegadas lamacentas"] := by
  decide

/-- C8, amended: at every room the command S/s ends the current call of
`explorarSalas` at once: nothing more is read by it and it returns the ledger
of that moment.  At the room the exploration started from, in its first call
or after any number of excursions E/e, D/d that came back to it, this ends the
exploration as a whole; for the call `main` makes on the hall, that ledger is
the one the judgment receives.  In a room entered from a parent room by E/e or
D/d, control returns to the parent, which is entered again and reads the next
command. -/
theorem explorarSalas_sair (nome : CStr) (esq dir : Sala) (p : NoPista) (c : Nat)
    (resto : List Nat) (h : c = 's'.toNat ∨ c = 'S'.toNat) :
    (∀ n, explorarSalasAux (n + 1) (Sala.no nome esq dir) p (c :: resto) =
      some (coletar nome p, resto)) ∧
    explorarSalas (Sala.no nome esq dir) p (c :: resto) = some (coletar nome p, resto) ∧
    (∀ (p0 : NoPista) (e0 : List Nat),
      VoltaASala (Sala.no nome esq dir) p0 e0 p (c :: resto) →
      explorarSalas (Sala.no nome esq dir) p0 e0 = some (coletar nome p, resto)) ∧
    (∀ stdin : List Nat, VoltaASala hall NoPista.nulo (semBrancos stdin.tail) p (c :: resto) →
      principal stdin =
        (lerAcusado
          (aposLeituras ((semBrancos stdin.tail).length - resto.length) stdin.tail)).map
          fun acusado =>
            verificarSuspeitoFinal (coletar (lit "Hall de Entrada") p) tabelaHash acusado) ∧
    (∀ (c' : Nat) (nomePai : CStr) (irma : Sala) (pPai : NoPista),
      (c' = 'e'.toNat ∨ c' = 'E'.toNat) →
      explorarSalas (Sala.no nomePai (Sala.no nome esq dir) irma) pPai (c' :: c :: resto) =
        explorarSalas (Sala.no nomePai (Sala.no nome esq dir) irma)
          (coletar nome (coletar nomePai pPai)) resto) ∧
    (∀ (c' : Nat) (nomePai : CStr) (irma : Sala) (pPai : NoPista),
      (c' = 'd'.toNat ∨ c' = 'D'.toNat) →
      explorarSalas (Sala.no nomePai irma (Sala.no nome esq dir)) pPai (c' :: c :: resto) =
        explorarSalas (Sala.no nomePai irma (Sala.no nome esq dir))
          (coletar nome (coletar nomePai pPai)) resto) := by
  have he : ¬ (c = 'e'.toNat ∨ c = 'E'.toNat) := by
    rcases h with rfl | rfl <;> decide
  have hd : ¬ (c = 'd'.toNat ∨ c = 'D'.toNat) := by
    rcases h with rfl | rfl <;> decide
  have passo : ∀ (n : Nat) (nm : CStr) (e d : Sala) (q : NoPista),
      explorarSalasAux (n + 1) (Sala.no nm e d) q (c :: resto) = some (coletar nm q, resto) := by
    intro n nm e d q
    rw [explorarSalasAux_cons, if_neg he, if_neg hd]
  have sai : ∀ (nm : CStr) (e d : Sala) (q : NoPista),
      explorarSalas (Sala.no nm e d) q (c :: resto) = some (coletar nm q, resto) :=
    fun nm e d q => passo _ nm e d q
  refine ⟨fun n => passo n nome esq dir p, sai nome esq dir p, ?_, ?_, ?_, ?_⟩
  · intro p0 e0 hv
    rw [explorarSalas_voltaASala _ _ _ _ _ hv]
    exact sai nome esq dir p
  · intro stdin hv
    have hexp : explorarSalas hall NoPista.nulo (semBrancos stdin.tail) =
        some (coletar (lit "Hall de Entrada") p, resto) := by
      rw [explorarSalas_voltaASala _ _ _ _ _ hv]
      exact sai _ _ _ p
    simp only [principal, hexp, Option.some_bind]
  · intro c' nomePai irma pPai hc'
    rw [explorarSalas_cons, if_pos hc']
    have h1 : descer (Sala.no nome esq dir) (coletar nomePai pPai) (c :: resto) =
        some (coletar nome (coletar nomePai pPai), resto) := by
      simp only [descer, ne_eq, not_false_eq_true, if_true]
      exact sai nome esq dir _
    rw [h1]
    rfl
  · intro c' nomePai irma pPai hc'
    have he' : ¬ (c' = 'e'.toNat ∨ c' = 'E'.toNat) := by
      rcases hc' with rfl | rfl <;> decide
    rw [explorarSalas_cons, if_neg he', if_pos hc']
    have h1 : descer (Sala.no nome esq dir) (coletar nomePai pPai) (c :: resto) =
        some (coletar nome (coletar nomePai pPai), resto) := by
      simp only [descer, ne_eq, not_false_eq_true, if_true]
      exact sai nome esq dir _
    rw [h1]
    rfl

/-- Witness of the amended C8, on the run E, S, S, E from the room "A" with the
children "Biblioteca" and "Sala de Jantar": the first S, at "Biblioteca",
returns to "A"; the second S, at "A" entered again, ends the exploration and
leaves E unread. -/
theorem explorarSalas_sair_witness :
    explorarSalas casaTeste NoPista.nulo ('E'.toNat :: 'S'.toNat :: lit "SE") =
      explorarSalas casaTeste
        (coletar (lit "Biblioteca") (coletar (lit "A") NoPista.nulo)) (lit "SE") ∧
    explorarSalas casaTeste NoPista.nulo ('E'.toNat :: lit "SSE") =
      some (coletar (lit "A") (coletar (lit "Biblioteca") (coletar (lit "A") NoPista.nulo)),
        lit "E") :=
  ⟨(explorarSalas_sair (lit "Biblioteca") Sala.nulo Sala.nulo NoPista.nulo 'S'.toNat
      (lit "SE") (Or.inr rfl)).2.2.2.2.1 'E'.toNat (lit "A") (criarSala (lit "Sala de Jantar"))
      NoPista.nulo (Or.inr rfl),
   (explorarSalas_sair (lit "A") (criarSala (lit "Biblioteca"))
      (criarSala (lit "Sala de Jantar"))
      (coletar (lit "Biblioteca") (coletar (lit "A") NoPista.nulo)) 'S'.toNat (lit "E")
      (Or.inr rfl)).2.2.1 NoPista.nulo ('E'.toNat :: lit "SSE")
      (VoltaASala.esquerda (lit "A") (criarSala (lit "Biblioteca"))
        (criarSala (lit "Sala de Jantar")) NoPista.nulo 'E'.toNat (lit "SSE")
        (coletar (lit "Biblioteca") (coletar (lit "A") NoPista.nulo)) (lit "SE")
        (coletar (lit "Biblioteca") (coletar (lit "A") NoPista.nulo)) (lit "SE")
        (Or.inr rfl) (by decide) (VoltaASala.aqui _ _ _))⟩

/-- C9 at the failing input: the character x, entered at the hall with E still
to come, ends the call exactly as S does: the exploration is over, E is left
unread and the judgment follows (in the run of `main` it reads the unread E as
the accused name); entered at "Biblioteca" it returns to the hall, so that the
run E, x, D, S, S ends as the run E, S, D, S, S does. -/
theorem explorarSalas_outro_caractere :
    explorarSalas hall NoPista.nulo (lit "xE") =
      some (coletar (lit "Hall de Entrada") NoPista.nulo, lit "E") ∧
    explorarSalas hall NoPista.nulo (lit "xE") = explorarSalas hall NoPista.nulo (lit "SE") ∧
    principal (lit "\nx\nE\nColonel Mustard\n") =
      some (verificarSuspeitoFinal (coletar (lit "Hall de Entrada") NoPista.nulo) tabelaHash
        (lit "E")) ∧
    explorarSalas hall NoPista.nulo (lit "ExDSS") = explorarSalas hall NoPista.nulo (lit "ESDSS") := by
  decide

/-- C10, as stated, fails: `obterPistaDaSala` is a fixed table that knows no
room named "B" or "C", so the run E, S, D, S, S over the rooms A, B, C returns
an empty ledger, and accusing "S1" counts no clue and is not solved. -/
theorem cenario_ABC_sem_pistas :
    obterPistaDaSala (lit "B") = none ∧ obterPistaDaSala (lit "C") = none ∧
    explorarSalas casaABC NoPista.nulo (lit "ESDSS") = some (NoPista.nulo, []) ∧
    (verificarSuspeitoFinal NoPista.nulo indiceABC (lit "S1")).numPistas = 0 ∧
    (verificarSuspeitoFinal NoPista.nulo indiceABC (lit "S1")).casoResolvido = false := by
  decide

/-- C10, amended: with root "A" (no clue), left child "Biblioteca" and right
child "Sala de Jantar", whose clues in `obterPistaDaSala` are "Livro de venenos
aberto" and "Copo com residuo suspeito", and an index mapping both clues to
"S1", the run E, S, D, S, S yields a ledger with exactly those two clues;
accusing "S1" counts 2 and is solved, accusing "S2" counts 0 and is not
solved. -/
theorem cenario_de_ponta_a_ponta :
    obterPistaDaSala (lit "A") = none ∧
    (explorarSalas casaTeste NoPista.nulo (lit "ESDSS")).map
        (fun r => (exibirPistas r.1, r.2)) =
      some ([lit "Copo com residuo suspeito", lit "Livro de venenos aberto"], []) ∧
    (explorarSalas casaTeste NoPista.nulo (lit "ESDSS")).map
        (fun r => verificarSuspeitoFinal r.1 indiceTeste (lit "S1")) =
      some { pistasExibidas := [lit "Copo com residuo suspeito", lit "Livro de venenos aberto"]
             acusado := lit "S1", numPistas := 2, casoResolvido := true } ∧
    (explorarSalas casaTeste NoPista.nulo (lit "ESDSS")).map
        (fun r => verificarSuspeitoFinal r.1 indiceTeste (lit "S2")) =
      some { pistasExibidas := [lit "Copo com residuo suspeito", lit "Livro de venenos aberto"]
             acusado := lit "S2", numPistas := 0, casoResolvido := false } := by
  decide

/-- C11: `inserirPista` preserves the search-tree invariant of the ledger: for
every tree that satisfies it (the empty tree included) and every clue text,
the tree returned satisfies it again, and so lists no text twice. -/
theorem inserirPista_preserva_invariante (t : NoPista) (x : CStr) (h : ArvoreDeBusca t) :
    ArvoreDeBusca (inserirPista t x) ∧ (exibirPistas (inserirPista t x)).Nodup ∧
    ArvoreDeBusca (inserirPista NoPista.nulo x) :=
  ⟨arvoreDeBusca_inserirPista t x h,
   crescente_nodup ((arvoreDeBusca_iff_crescente _).1 (arvoreDeBusca_inserirPista t x h)),
   arvoreDeBusca_inserirPista NoPista.nulo x trivial⟩

/-- Witness of C11: a new text inserted into a ledger of three. -/
theorem inserirPista_preserva_invariante_witness :
    ArvoreDeBusca (NoPista.no (NoPista.no NoPista.nulo (lit "a") NoPista.nulo) (lit "c")
      (NoPista.no NoPista.nulo (lit "e") NoPista.nulo)) ∧
    inserirPista (NoPista.no (NoPista.no NoPista.nulo (lit "a") NoPista.nulo) (lit "c")
        (NoPista.no NoPista.nulo (lit "e") NoPista.nulo)) (lit "d") =
      NoPista.no (NoPista.no NoPista.nulo (lit "a") NoPista.nulo) (lit "c")
        (NoPista.no (NoPista.no NoPista.nulo (lit "d") NoPista.nulo) (lit "e") NoPista.nulo) ∧
    ArvoreDeBusca (inserirPista (NoPista.no (NoPista.no NoPista.nulo (lit "a") NoPista.nulo)
      (lit "c") (NoPista.no NoPista.nulo (lit "e") NoPista.nulo)) (lit "d")) :=
  ⟨by decide, by decide,
   (inserirPista_preserva_invariante
     (NoPista.no (NoPista.no NoPista.nulo (lit "a") NoPista.nulo) (lit "c")
       (NoPista.no NoPista.nulo (lit "e") NoPista.nulo)) (lit "d") (by decide)).1⟩

/-- C12: in a ledger that satisfies the search-tree invariant, the insertion
of a text already present returns the very same tree; the insertion of a text
not present returns a tree whose texts are those of the old tree and the new
text, once, and nothing else. -/
theorem inserirPista_presente_ou_nova (t : NoPista) (x : CStr) (h : ArvoreDeBusca t) :
    (x ∈ exibirPistas t → inserirPista t x = t) ∧
    (x ∉ exibirPistas t →
      (∀ y, y ∈ exibirPistas (inserirPista t x) ↔ y = x ∨ y ∈ exibirPistas t) ∧
      (exibirPistas (inserirPista t x)).Perm (x :: exibirPistas t)) := by
  refine ⟨inserirPista_presente t x h, fun hx => ⟨mem_exibirPistas_inserirPista t x, ?_⟩⟩
  rcases inserirPista_igual_ou_perm t x with h1 | h1
  · exact absurd ((mem_exibirPistas_inserirPista t x x).2 (Or.inl rfl)) (by rw [h1]; exact hx)
  · exact h1

/-- Witness of C12: "e" is present in the ledger a, c, e and "d" is not. -/
theorem inserirPista_presente_ou_nova_witness :
    inserirPista (NoPista.no (NoPista.no NoPista.nulo (lit "a") NoPista.nulo) (lit "c")
        (NoPista.no NoPista.nulo (lit "e") NoPista.nulo)) (lit "e") =
      NoPista.no (NoPista.no NoPista.nulo (lit "a") NoPista.nulo) (lit "c")
        (NoPista.no NoPista.nulo (lit "e") NoPista.nulo) ∧
    (exibirPistas (inserirPista (NoPista.no (NoPista.no NoPista.nulo (lit "a") NoPista.nulo)
        (lit "c") (NoPista.no NoPista.nulo (lit "e") NoPista.nulo)) (lit "d"))).Perm
      (lit "d" :: exibirPistas (NoPista.no (NoPista.no NoPista.nulo (lit "a") NoPista.nulo)
        (lit "c") (NoPista.no NoPista.nulo (lit "e") NoPista.nulo))) :=
  ⟨(inserirPista_presente_ou_nova
      (NoPista.no (NoPista.no NoPista.nulo (lit "a") NoPista.nulo) (lit "c")
        (NoPista.no NoPista.nulo (lit "e") NoPista.nulo)) (lit "e") (by decide)).1 (by decide),
   ((inserirPista_presente_ou_nova
      (NoPista.no (NoPista.no NoPista.nulo (lit "a") NoPista.nulo) (lit "c")
        (NoPista.no NoPista.nulo (lit "e") NoPista.nulo)) (lit "d") (by decide)).2
          (by decide)).2⟩

/-- C13 at the failing input: for the one-character key whose `char` reads as
-23 (the byte 0xE9 where plain `char` is signed) the source arithmetic gives
the bucket index -3, and for the two-character key -61, -93 (the bytes 0xC3,
0xA3) it gives -4: both below 0, outside the table. -/
theorem funcaoHashInt_negativa :
    funcaoHashInt [-23] = -3 ∧ funcaoHashInt [-23] < 0 ∧
    funcaoHashInt [-61, -93] = -4 ∧ funcaoHashInt [-61, -93] < 0 := by
  decide

/-- C14: a clue whose lookup misses adds nothing to the match count: for every
ledger (built by insertions or not), table, accused name and clue whose lookup
returns not-found, the count after the insertion of the clue is the count
before it. -/
theorem contarPistasPorSuspeito_pista_sem_suspeito (ledger : NoPista) (th : TabelaHash)
    (a c : CStr) (h : encontrarSuspeito th c = none) :
    contarPistasPorSuspeito (inserirPista ledger c) th a =
      contarPistasPorSuspeito ledger th a ∧
    (∀ pistas : List CStr,
      contarPistasPorSuspeito (inserirPista (inserirTodas NoPista.nulo pistas) c) th a =
        contarPistasPorSuspeito (inserirTodas NoPista.nulo pistas) th a) :=
  ⟨contar_inserirPista_sem_suspeito ledger th a c h,
   fun _ => contar_inserirPista_sem_suspeito _ th a c h⟩

/-- Witness of C14: the clue "x" is not in the table of `main`; the ledger
holds two clues of Professor Plum. -/
theorem contarPistasPorSuspeito_pista_sem_suspeito_witness :
    encontrarSuspeito tabelaHash (lit "x") = none ∧
    contarPistasPorSuspeito
      (inserirPista (inserirTodas NoPista.nulo
        [lit "Livro de venenos aberto", lit "Copo com residuo suspeito"]) (lit "x"))
      tabelaHash (lit "Professor Plum") =
    contarPistasPorSuspeito
      (inserirTodas NoPista.nulo
        [lit "Livro de venenos aberto", lit "Copo com residuo suspeito"])
      tabelaHash (lit "Professor Plum") :=
  ⟨by decide,
   (contarPistasPorSuspeito_pista_sem_suspeito
     (inserirTodas NoPista.nulo
       [lit "Livro de venenos aberto", lit "Copo com residuo suspeito"])
     tabelaHash (lit "Professor Plum") (lit "x") (by decide)).1⟩

/-- C16: for 7-bit keys, whose indices are inside the array of the table, the
insertion of a key does not disturb the lookup of any other key, whether or
not the two keys fall in the same bucket, and leaves every other bucket as it
was. -/
theorem encontrarSuspeito_outra_chave (th : TabelaHash) (k k' v : CStr)
    (hk : SeteBits k) (hk' : SeteBits k') (h : k' ≠ k) :
    (0 ≤ funcaoHash k ∧ funcaoHash k < (TAM_HASH : Int)) ∧
    (0 ≤ funcaoHash k' ∧ funcaoHash k' < (TAM_HASH : Int)) ∧
    encontrarSuspeito (inserirNaHash th k v) k' = encontrarSuspeito th k' ∧
    (∀ i : Int, i ≠ funcaoHash k → (inserirNaHash th k v).tabela i = th.tabela i) := by
  refine ⟨(funcaoHash_seteBits k hk).2, (funcaoHash_seteBits k' hk').2,
    encontrarSuspeito_inserirNaHash_outra th k v k' (fun hkk => h hkk.symm), ?_⟩
  intro i hi
  simp [inserirNaHash, hi]

/-- Witness of C16: "ab" and "ba" fall in the same bucket; the lookup of "ab"
is the same before and after the insertion of "ba". -/
theorem encontrarSuspeito_outra_chave_witness :
    funcaoHash (lit "ab") = funcaoHash (lit "ba") ∧
    encontrarSuspeito
      (inserirNaHash (inserirNaHash (inicializarHash ⟨fun _ => []⟩) (lit "ab") (lit "X"))
        (lit "ba") (lit "Y")) (lit "ab") =
    encontrarSuspeito (inserirNaHash (inicializarHash ⟨fun _ => []⟩) (lit "ab") (lit "X"))
      (lit "ab") :=
  ⟨by decide,
   (encontrarSuspeito_outra_chave
     (inserirNaHash (inicializarHash ⟨fun _ => []⟩) (lit "ab") (lit "X"))
     (lit "ba") (lit "ab") (lit "Y") (by decide) (by decide) (by decide)).2.2.1⟩

/-- C15: the exploration never loops: for every room tree, ledger and finite
input `explorarSalas` returns, and any bound on the depth of the calls above
the length of the input gives that result; a call on a room that has a
character to read consumes it before any further call, so what it leaves
unread is at most the rest; and at every room the command S/s ends the call
with no further call at all (a depth of one is enough), also at a room with no
clue and no children, where the ledger comes back untouched. -/
theorem explorarSalas_termina (s : Sala) (p : NoPista) (e : List Nat) :
    (∃ r, explorarSalas s p e = some r ∧ r.2.length ≤ e.length) ∧
    (∀ n, e.length < n → explorarSalasAux n s p e = explorarSalas s p e) ∧
    (∀ (nome : CStr) (esq dir : Sala) (c : Nat) (resto : List Nat),
      ∃ r, explorarSalas (Sala.no nome esq dir) p (c :: resto) = some r ∧
        r.2.length ≤ resto.length) ∧
    (∀ (nome : CStr) (esq dir : Sala) (c : Nat) (resto : List Nat),
      (c = 's'.toNat ∨ c = 'S'.toNat) →
      explorarSalasAux 1 (Sala.no nome esq dir) p (c :: resto) =
        some (coletar nome p, resto)) ∧
    (∀ (nome : CStr) (c : Nat) (resto : List Nat), obterPistaDaSala nome = none →
      (c = 's'.toNat ∨ c = 'S'.toNat) →
      explorarSalas (criarSala nome) p (c :: resto) = some (p, resto)) := by
  have sai : ∀ (n : Nat) (nome : CStr) (esq dir : Sala) (c : Nat) (resto : List Nat),
      (c = 's'.toNat ∨ c = 'S'.toNat) →
      explorarSalasAux (n + 1) (Sala.no nome esq dir) p (c :: resto) =
        some (coletar nome p, resto) := by
    intro n nome esq dir c resto h
    have he : ¬ (c = 'e'.toNat ∨ c = 'E'.toNat) := by
      rcases h with rfl | rfl <;> decide
    have hd : ¬ (c = 'd'.toNat ∨ c = 'D'.toNat) := by
      rcases h with rfl | rfl <;> decide
    rw [explorarSalasAux_cons, if_neg he, if_neg hd]
  refine ⟨explorarSalas_some s p e, fun n hn => explorarSalasAux_eq n s p e hn,
    fun nome esq dir c resto => explorarSalas_consome nome esq dir p c resto,
    fun nome esq dir c resto h => sai 0 nome esq dir c resto h, ?_⟩
  intro nome c resto hn h
  simp only [explorarSalas, criarSala, List.length_cons]
  rw [sai _ nome Sala.nulo Sala.nulo c resto h]
  simp [coletar, hn]

/-- C17: the exploration only accumulates clues: from every starting room,
with every incoming ledger that satisfies the search-tree invariant and every
input, `explorarSalas` returns a ledger that satisfies the invariant, holds
every clue of the incoming ledger, holds the clue `obterPistaDaSala` gives for
the starting room, and holds beyond the incoming clues only clues that
`obterPistaDaSala` gives for rooms of the subtree of the starting room. -/
theorem explorarSalas_acumula (s : Sala) (p : NoPista) (e : List Nat)
    (h : ArvoreDeBusca p) :
    ∃ r, explorarSalas s p e = some r ∧
      ArvoreDeBusca r.1 ∧
      (∀ y ∈ exibirPistas p, y ∈ exibirPistas r.1) ∧
      (∀ (nome : CStr) (esq dir : Sala) (c : CStr), s = Sala.no nome esq dir →
        obterPistaDaSala nome = some c → c ∈ exibirPistas r.1) ∧
      (∀ y ∈ exibirPistas r.1,
        y ∈ exibirPistas p ∨ ∃ nome ∈ salasDe s, obterPistaDaSala nome = some y) := by
  obtain ⟨r, hr, _⟩ := explorarSalas_some s p e
  have ha := explorarSalasAux_acumula _ s p e r hr
  refine ⟨r, hr, ha.1 h, ha.2.1, ?_, ha.2.2⟩
  intro nome esq dir c hs hc
  subst hs
  exact explorarSalasAux_pista_da_sala _ nome esq dir c hc p e r hr

/-- Witness of C17: the run E, S, D, S, S from the hall of `main`, with the
clue of the cellar already in the ledger. -/
theorem explorarSalas_acumula_witness :
    ∃ r, explorarSalas hall (inserirPista NoPista.nulo (lit "Garrafa de vinho rara"))
        (lit "ESDSS") = some r ∧
      ArvoreDeBusca r.1 ∧
      (∀ y ∈ exibirPistas (inserirPista NoPista.nulo (lit "Garrafa de vinho rara")),
        y ∈ exibirPistas r.1) ∧
      (∀ (nome : CStr) (esq dir : Sala) (c : CStr), hall = Sala.no nome esq dir →
        obterPistaDaSala nome = some c → c ∈ exibirPistas r.1) ∧
      (∀ y ∈ exibirPistas r.1,
        y ∈ exibirPistas (inserirPista NoPista.nulo (lit "Garrafa de vinho rara")) ∨
          ∃ nome ∈ salasDe hall, obterPistaDaSala nome = some y) :=
  explorarSalas_acumula hall (inserirPista NoPista.nulo (lit "Garrafa de vinho rara"))
    (lit "ESDSS") (by decide)

/-- C18: the configuration of `main` is consistent: the mansion has ten rooms,
`obterPistaDaSala` gives a clue for each, the ten clues are pairwise distinct,
each of them is a key that `main` inserts into the table, and the lookup of
every inserted key in the table of `main` returns the suspect it was inserted
with; so every clue in the ledger of every run of the program resolves to a
suspect. -/
theorem configuracao_consistente :
    (salasDe hall).length = 10 ∧
    (∀ nome ∈ salasDe hall, ∃ par ∈ associacoes, obterPistaDaSala nome = some par.1) ∧
    ((salasDe hall).map obterPistaDaSala).Nodup ∧
    (∀ par ∈ associacoes, encontrarSuspeito tabelaHash par.1 = some par.2) ∧
    (∀ entrada : List Nat, ∃ r, explorarSalas hall NoPista.nulo entrada = some r ∧
      ∀ y ∈ exibirPistas r.1, ∃ par ∈ associacoes,
        par.1 = y ∧ encontrarSuspeito tabelaHash y = some par.2) := by
  have h1 : ∀ nome ∈ salasDe hall, ∃ par ∈ associacoes,
      obterPistaDaSala nome = some par.1 := by decide
  have h2 : ∀ par ∈ associacoes, encontrarSuspeito tabelaHash par.1 = some par.2 := by decide
  refine ⟨by decide, h1, by decide, h2, ?_⟩
  intro entrada
  obtain ⟨r, hr, _⟩ := explorarSalas_some hall NoPista.nulo entrada
  refine ⟨r, hr, fun y hy => ?_⟩
  rcases (explorarSalasAux_acumula _ hall NoPista.nulo entrada r hr).2.2 y hy with h | h
  · simp [exibirPistas] at h
  · obtain ⟨nome, hn, hc⟩ := h
    obtain ⟨par, hp, hpc⟩ := h1 nome hn
    have hy1 : par.1 = y := by
      rw [hc] at hpc
      exact (Option.some.inj hpc).symm
    exact ⟨par, hp, hy1, hy1 ▸ h2 par hp⟩

end DetectiveQuest
